import Mathlib

/-!
Shallow embedding of `src/api/orders-create.js` (two revisions of a Shopify
webhook handler that copies Zapiet note attributes from a draft order onto
the created order), together with theorems settling the frozen claims.

Conventions of the embedding:
* A JS note attribute `{name, value}` becomes `Attr` with `Option String`
  fields; `none` stands for an absent / null / undefined field (they are
  indistinguishable to the code: `a?.name` and `a.value ?? ""`).
* JS truthiness of `a?.name` is `attrTruthyName`: a name is "truthy" when it
  is present and not the empty string.
* Byte strings (raw body, HMAC digests, header values) are `List Nat`.
* Remote effects (fetch of order / draft, JSON parsing, the crypto HMAC
  primitive) are fields of a `World` record: the handler is a pure function
  of the request, the environment and that world, and it returns its HTTP
  status, response body, and the list of outbound remote calls it issued.
-/

/-- A note attribute `{name, value}`; `none` models an absent/null field. -/
structure Attr where
  name : Option String
  value : Option String
deriving Repr, DecidableEq

/-- JS truthiness of `a?.name`: the name as a string when present and
non-empty, otherwise `none` (absent, null, or `""` are all falsy). -/
def attrTruthyName : Attr → Option String
  | ⟨some n, _⟩ => if n = "" then none else some n
  | ⟨none, _⟩ => none

/-- The object `{ name: a.name, value: a.value ?? "" }` built at lines 31-32
of the source: the value is coerced to `""` when null/undefined. -/
def coerceAttr (a : Attr) : Attr :=
  ⟨a.name, some (a.value.getD "")⟩

/-- Index of the last truthily-named occurrence of `n` in the list: the
final content of the JS `Map` built by
`out.forEach((a, i) => a?.name && idx.set(a.name, i))` at key `n`
(later `set`s overwrite earlier ones, so the map keeps the last index). -/
def lastIdxOf : List Attr → String → Option Nat
  | [], _ => none
  | a :: t, n =>
    match lastIdxOf t n with
    | some i => some (i + 1)
    | none => if attrTruthyName a = some n then some 0 else none

/-- The coerced value (`a.value ?? ""`) of the last attribute of the list
whose truthy name is `n`, if any. -/
def lastValueFor : List Attr → String → Option String
  | [], _ => none
  | a :: t, n =>
    match lastValueFor t n with
    | some v => some v
    | none =>
      if attrTruthyName a = some n then some (a.value.getD "") else none

/-- One iteration of the `for (const a of incoming)` loop of
`mergeNoteAttributes`: skip nameless attributes, overwrite the indexed slot
when the name is already keyed (the `Map` is built from `existing` before
the loop and never updated), otherwise push to the end. -/
def mergeStep (existing : List Attr) (out : List Attr) (a : Attr) : List Attr :=
  match attrTruthyName a with
  | none => out
  | some n =>
    match lastIdxOf existing n with
    | none => out ++ [coerceAttr a]
    | some i => out.set i (coerceAttr a)

/-- `mergeNoteAttributes(existing, incoming)` from the source: start from a
copy of `existing` and fold the loop body over `incoming`. -/
def mergeNoteAttributes (existing incoming : List Attr) : List Attr :=
  incoming.foldl (mergeStep existing) existing

/-- `differs(a1, a2)`: the JSON-stringify inequality test of the source,
which on this data model is structural inequality. -/
def differs (a1 a2 : List Attr) : Bool :=
  !(a1 == a2)

/-- `timingSafeEqual(a, b)` from the source: unequal byte lengths fail
closed before any content comparison; equal lengths compare bytewise. -/
def timingSafeEqual (a b : List Nat) : Bool :=
  if a.length ≠ b.length then false else a == b

/-- The fixed allow-list `wanted` of the source. -/
def wantedNames : List String :=
  ["Delivery-Location-Id", "Delivery-Date", "Checkout-Method"]

/-- The filter predicate `a => wanted.has(a?.name)`: a nameless attribute
yields `undefined`, which is not in the set; `""` is not in the set either. -/
def wantedP (a : Attr) : Bool :=
  match a.name with
  | some n => wantedNames.contains n
  | none => false

/-!  Specification-side restatement of the merge (used for claim C1): the
name-keyed upsert described by the spec.  Existing entries keep their order
and position; an entry holding the last occurrence of a name that also
occurs truthily in the incoming list is overwritten in place with the last
incoming value for that name; each incoming attribute whose truthy name
does not occur in the existing list is appended at the end in incoming
order. -/

/-- What the spec says happens to the existing entry at index `i`:
untouched unless it is the last occurrence of a truthy name for which the
incoming list supplies a value, in which case the value is overwritten in
place. -/
def owFun (existing incoming : List Attr) (i : Nat) (a : Attr) : Attr :=
  match attrTruthyName a with
  | none => a
  | some n =>
    if lastIdxOf existing n = some i then
      match lastValueFor incoming n with
      | none => a
      | some v => ⟨some n, some v⟩
    else a

/-- Apply `owFun` positionally, starting at index `k`. -/
def owAux (existing incoming : List Attr) : Nat → List Attr → List Attr
  | _, [] => []
  | k, a :: t => owFun existing incoming k a :: owAux existing incoming (k + 1) t

/-- The existing list with allowed in-place overwrites applied. -/
def overwriteAt (existing incoming : List Attr) : List Attr :=
  owAux existing incoming 0 existing

/-- Keep an incoming attribute when its truthy name is new to the
existing list, coerced; drop it otherwise. -/
def newKeep (existing : List Attr) (a : Attr) : Option Attr :=
  match attrTruthyName a with
  | none => none
  | some n =>
    match lastIdxOf existing n with
    | none => some (coerceAttr a)
    | some _ => none

/-- The incoming attributes whose truthy names are new to the existing
list, coerced, in incoming order. -/
def appendedNew (existing incoming : List Attr) : List Attr :=
  incoming.filterMap (newKeep existing)

/-- The spec's name-keyed upsert: overwrites in place, then appends the new
names at the end. -/
def mergeSpec (existing incoming : List Attr) : List Attr :=
  overwriteAt existing incoming ++ appendedNew existing incoming

/-!  Handler model.  The two source revisions export one async `handler`
each; we call the first (no tag filter) `handlerV1` and the second (tagged
`samita-wholesale` filter plus logging) `handlerV2`.  Remote calls and
crypto are abstracted into a `World`. -/

/-- The parsed webhook payload; only `order?.id` is consulted. -/
structure OrderEvent where
  id : Option Nat
deriving Repr, DecidableEq

/-- The body of `GET /orders/{id}` (`fullOrder?.order?...`); a missing
`order` wrapper behaves like all fields absent, so fields are optional. -/
structure OrderResource where
  tags : Option String
  draft_order_id : Option Nat
  note_attributes : Option (List Attr)
deriving Repr, DecidableEq

/-- The body of `GET /draft_orders/{id}` (`draft?.draft_order?...`). -/
structure DraftResource where
  note_attributes : Option (List Attr)
deriving Repr, DecidableEq

/-- Configuration from the environment: `process.env.WEBHOOK_SECRET` as
raw bytes; `none` models an unset variable. -/
structure Env where
  secret : Option (List Nat)

/-- The inbound HTTP request: method, raw body bytes, and the
`x-shopify-hmac-sha256` header bytes when present. -/
structure Request where
  method : String
  rawBody : List Nat
  hmacHeader : Option (List Nat)

/-- The ambient world: `hmac secret body` abstracts
`crypto.createHmac("sha256", secret).update(raw).digest("base64")` (a
library primitive, not repository code) as the bytes of the base64 digest;
`parse` abstracts `JSON.parse` on the raw bytes; the two fetches return
`none` exactly when the HTTP response is not ok; `putOk` is the outcome of
the final `PUT` (consulted by the source only for logging). -/
structure World where
  hmac : List Nat → List Nat → List Nat
  parse : List Nat → Option OrderEvent
  fetchOrder : Nat → Option OrderResource
  fetchDraft : Nat → Option DraftResource
  putOk : Bool

/-- An outbound remote call issued by the handler. -/
inductive RemoteCall where
  | getOrder (id : Nat)
  | getDraft (id : Nat)
  | putOrder (id : Nat) (attrs : List Attr)
deriving Repr, DecidableEq

/-- The handler's observable outcome: HTTP status, response body text, and
the outbound remote calls issued, in order. -/
structure HResult where
  status : Nat
  body : String
  calls : List RemoteCall
deriving Repr, DecidableEq

/-- JS truthiness of a numeric id: absent and `0` are both falsy
(`!orderId`, `!draftId`). -/
def truthyId : Option Nat → Option Nat
  | none => none
  | some n => if n = 0 then none else some n

/-- `hay.includes(sub)` on strings: some suffix of `hay` starts with
`sub`. -/
def strContains (hay sub : String) : Bool :=
  (List.range (hay.data.length + 1)).any fun i => sub.data.isPrefixOf (hay.data.drop i)

/-- `s.toLowerCase()`, character by character (the tags and marker in the
source are ASCII, where JS and Lean lower-casing agree). -/
def lowerStr (s : String) : String :=
  ⟨s.data.map Char.toLower⟩

/-- The fixed marker substring of the tagged revision. -/
def samitaMarker : String := "samita-wholesale"

/-- Steps shared verbatim by both revisions from the `draft_order_id` read
onward: fetch the draft, filter its attributes by the allow-list, merge,
and `PUT` back when something changed.  The call list includes the
already-issued order fetch. -/
def draftPhase (w : World) (oid : Nat) (ord : OrderResource) : HResult :=
  match truthyId ord.draft_order_id with
  | none => ⟨200, "No draft link", [RemoteCall.getOrder oid]⟩
  | some draftId =>
    match w.fetchDraft draftId with
    | none => ⟨200, "GET draft failed", [RemoteCall.getOrder oid, RemoteCall.getDraft draftId]⟩
    | some draft =>
      let draftAttrs := (draft.note_attributes.getD []).filter wantedP
      if draftAttrs.isEmpty then
        ⟨200, "No Zapiet attrs on draft", [RemoteCall.getOrder oid, RemoteCall.getDraft draftId]⟩
      else
        let existing := (ord.note_attributes.getD [])
        let merged := mergeNoteAttributes existing draftAttrs
        if differs existing merged then
          ⟨200, "Done",
            [RemoteCall.getOrder oid, RemoteCall.getDraft draftId,
             RemoteCall.putOrder oid merged]⟩
        else
          ⟨200, "No changes needed", [RemoteCall.getOrder oid, RemoteCall.getDraft draftId]⟩

/-- Steps 2-3 shared by both revisions: parse the verified body, read the
order id, fetch the order, and hand over to the revision-specific
continuation (`afterOrder oid ord`). -/
def orderPhase (w : World) (raw : List Nat)
    (afterOrder : Nat → OrderResource → HResult) : HResult :=
  match w.parse raw with
  | none => ⟨400, "Bad JSON", []⟩
  | some ev =>
    match truthyId ev.id with
    | none => ⟨200, "No order id", []⟩
    | some oid =>
      match w.fetchOrder oid with
      | none => ⟨200, "GET order failed", [RemoteCall.getOrder oid]⟩
      | some ord => afterOrder oid ord

/-- What the second revision does once the order is fetched: the
lower-cased tag string must contain the marker, otherwise the request is
acknowledged and dropped. -/
def taggedAfterOrder (w : World) (oid : Nat) (ord : OrderResource) : HResult :=
  if strContains (lowerStr (ord.tags.getD "")) samitaMarker then
    draftPhase w oid ord
  else
    ⟨200, "Not a Samita order", [RemoteCall.getOrder oid]⟩

/-- The first revision's `handler`: HMAC verification, JSON parse, order
fetch, then `draftPhase`.  `!secret || !hmacHeader` is falsiness: unset or
empty both reject. -/
def handlerV1 (env : Env) (w : World) (req : Request) : HResult :=
  if req.method ≠ "POST" then ⟨200, "OK", []⟩ else
  match env.secret, req.hmacHeader with
  | none, _ => ⟨401, "Missing secret or hmac", []⟩
  | some _, none => ⟨401, "Missing secret or hmac", []⟩
  | some s, some h =>
    if s = [] ∨ h = [] then ⟨401, "Missing secret or hmac", []⟩
    else if timingSafeEqual (w.hmac s req.rawBody) h = false then ⟨401, "Bad HMAC", []⟩
    else orderPhase w req.rawBody (draftPhase w)

/-- The second revision's `handler`: identical to the first, with the tag
filter of `taggedAfterOrder` between the order fetch and the draft steps. -/
def handlerV2 (env : Env) (w : World) (req : Request) : HResult :=
  if req.method ≠ "POST" then ⟨200, "OK", []⟩ else
  match env.secret, req.hmacHeader with
  | none, _ => ⟨401, "Missing secret or hmac", []⟩
  | some _, none => ⟨401, "Missing secret or hmac", []⟩
  | some s, some h =>
    if s = [] ∨ h = [] then ⟨401, "Missing secret or hmac", []⟩
    else if timingSafeEqual (w.hmac s req.rawBody) h = false then ⟨401, "Bad HMAC", []⟩
    else orderPhase w req.rawBody (taggedAfterOrder w)

/-- The secret is falsy: unset, or the empty string (both fail the JS
check `!secret`); the spec's "missing secret". -/
def secretMissing (env : Env) : Bool :=
  match env.secret with
  | none => true
  | some s => s.isEmpty

/-- The signature header is falsy: absent or empty (`!hmacHeader`). -/
def headerMissing (req : Request) : Bool :=
  match req.hmacHeader with
  | none => true
  | some h => h.isEmpty

/-- The spec's authentication-failure predicate: secret missing, or header
missing, or the computed digest is not byte-equal to the header value. -/
def authFails (env : Env) (w : World) (req : Request) : Bool :=
  secretMissing env || headerMissing req ||
    !(w.hmac (env.secret.getD []) req.rawBody == req.hmacHeader.getD [])

example :
    mergeNoteAttributes [⟨some "Gift", some "yes"⟩]
      [⟨some "Delivery-Date", some "2024-05-01"⟩] =
    [⟨some "Gift", some "yes"⟩, ⟨some "Delivery-Date", some "2024-05-01"⟩] := by
  decide

example :
    mergeNoteAttributes [⟨some "Delivery-Date", some "old"⟩]
      [⟨some "Delivery-Date", some "new"⟩] =
    [⟨some "Delivery-Date", some "new"⟩] := by
  decide

example :
    mergeSpec [⟨some "Delivery-Date", some "old"⟩]
      [⟨some "Delivery-Date", some "new"⟩] =
    [⟨some "Delivery-Date", some "new"⟩] := by
  decide

example :
    mergeNoteAttributes [] [⟨some "X", some "1"⟩, ⟨some "X", some "2"⟩] =
    [⟨some "X", some "1"⟩, ⟨some "X", some "2"⟩] := by
  decide

example :
    mergeSpec [] [⟨some "X", some "1"⟩, ⟨some "X", some "2"⟩] =
    [⟨some "X", some "1"⟩, ⟨some "X", some "2"⟩] := by
  decide

/-!  Basic lemmas about truthy names and last-occurrence lookups. -/

theorem attrTruthyName_eq_some {a : Attr} {n : String}
    (h : attrTruthyName a = some n) : a.name = some n ∧ n ≠ "" := by
  rcases a with ⟨nm, v⟩
  cases nm with
  | none => simp [attrTruthyName] at h
  | some m =>
    simp only [attrTruthyName] at h
    by_cases hm : m = ""
    · rw [if_pos hm] at h
      exact absurd h (by simp)
    · rw [if_neg hm] at h
      injection h with h
      subst h
      exact ⟨rfl, hm⟩

theorem attrTruthyName_coerceAttr (a : Attr) :
    attrTruthyName (coerceAttr a) = attrTruthyName a := by
  rcases a with ⟨nm, v⟩
  cases nm <;> simp [coerceAttr, attrTruthyName]

theorem lastIdxOf_eq_some {l : List Attr} {n : String} {i : Nat}
    (h : lastIdxOf l n = some i) :
    ∃ a, l[i]? = some a ∧ attrTruthyName a = some n := by
  induction l generalizing i with
  | nil => simp [lastIdxOf] at h
  | cons a t ih =>
    simp only [lastIdxOf] at h
    cases ht : lastIdxOf t n with
    | some j =>
      rw [ht] at h
      injection h with h
      subst h
      obtain ⟨b, hb, hname⟩ := ih ht
      exact ⟨b, by simpa using hb, hname⟩
    | none =>
      rw [ht] at h
      by_cases ha : attrTruthyName a = some n
      · rw [if_pos ha] at h
        injection h with h
        subst h
        exact ⟨a, by simp, ha⟩
      · rw [if_neg ha] at h
        exact absurd h (by simp)

theorem lastIdxOf_ge {l : List Attr} {n : String} {j : Nat} {a : Attr}
    (hj : l[j]? = some a) (ha : attrTruthyName a = some n) :
    ∃ k, lastIdxOf l n = some k ∧ j ≤ k := by
  induction l generalizing j with
  | nil => simp at hj
  | cons b t ih =>
    cases j with
    | zero =>
      simp only [List.getElem?_cons_zero] at hj
      injection hj with hj
      subst hj
      simp only [lastIdxOf]
      cases ht : lastIdxOf t n with
      | some i => exact ⟨i + 1, rfl, Nat.zero_le _⟩
      | none => exact ⟨0, by rw [if_pos ha], Nat.le_refl 0⟩
    | succ j =>
      simp only [List.getElem?_cons_succ] at hj
      obtain ⟨k, hk, hjk⟩ := ih hj
      refine ⟨k + 1, ?_, Nat.succ_le_succ hjk⟩
      simp only [lastIdxOf, hk]

theorem lastIdxOf_eq_none_iff {l : List Attr} {n : String} :
    lastIdxOf l n = none ↔ ∀ a ∈ l, attrTruthyName a ≠ some n := by
  induction l with
  | nil => simp [lastIdxOf]
  | cons a t ih =>
    simp only [lastIdxOf, List.mem_cons]
    constructor
    · intro h b hb
      cases ht : lastIdxOf t n with
      | some i => rw [ht] at h; exact absurd h (by simp)
      | none =>
        rw [ht] at h
        rcases hb with hb | hb
        · subst hb
          intro hcon
          rw [if_pos hcon] at h
          exact absurd h (by simp)
        · exact (ih.mp ht) b hb
    · intro h
      have ht : lastIdxOf t n = none := ih.mpr fun b hb => h b (Or.inr hb)
      rw [ht, if_neg (h a (Or.inl rfl))]

theorem lastValueFor_eq_none_iff {l : List Attr} {n : String} :
    lastValueFor l n = none ↔ ∀ a ∈ l, attrTruthyName a ≠ some n := by
  induction l with
  | nil => simp [lastValueFor]
  | cons a t ih =>
    simp only [lastValueFor, List.mem_cons]
    constructor
    · intro h b hb
      cases ht : lastValueFor t n with
      | some v => rw [ht] at h; exact absurd h (by simp)
      | none =>
        rw [ht] at h
        rcases hb with hb | hb
        · subst hb
          intro hcon
          rw [if_pos hcon] at h
          exact absurd h (by simp)
        · exact (ih.mp ht) b hb
    · intro h
      have ht : lastValueFor t n = none := ih.mpr fun b hb => h b (Or.inr hb)
      rw [ht, if_neg (h a (Or.inl rfl))]

theorem lastValueFor_ne_none {l : List Attr} {n : String} {a : Attr}
    (ha : a ∈ l) (hn : attrTruthyName a = some n) : lastValueFor l n ≠ none := by
  intro h
  exact (lastValueFor_eq_none_iff.mp h) a ha hn

theorem lastIdxOf_eq_none_iff_lastValueFor {l : List Attr} {n : String} :
    lastIdxOf l n = none ↔ lastValueFor l n = none := by
  rw [lastIdxOf_eq_none_iff, lastValueFor_eq_none_iff]

theorem lastIdxOf_append_of_some {l₁ l₂ : List Attr} {n : String} {i : Nat}
    (h : lastIdxOf l₂ n = some i) :
    lastIdxOf (l₁ ++ l₂) n = some (l₁.length + i) := by
  induction l₁ with
  | nil => simpa using h
  | cons a t ih =>
    show (match lastIdxOf (t ++ l₂) n with
      | some i => some (i + 1)
      | none => if attrTruthyName a = some n then some 0 else none) = _
    rw [ih, List.length_cons]
    exact congrArg some (by omega)

theorem lastIdxOf_append_of_none {l₁ l₂ : List Attr} {n : String}
    (h : lastIdxOf l₂ n = none) :
    lastIdxOf (l₁ ++ l₂) n = lastIdxOf l₁ n := by
  induction l₁ with
  | nil => simpa using h
  | cons a t ih =>
    show (match lastIdxOf (t ++ l₂) n with
      | some i => some (i + 1)
      | none => if attrTruthyName a = some n then some 0 else none) = _
    rw [ih]
    rfl

theorem lastValueFor_append {l₁ l₂ : List Attr} {n : String} :
    lastValueFor (l₁ ++ l₂) n =
      match lastValueFor l₂ n with
      | some v => some v
      | none => lastValueFor l₁ n := by
  induction l₁ with
  | nil =>
    cases h : lastValueFor l₂ n <;> simp [lastValueFor, h]
  | cons a t ih =>
    show (match lastValueFor (t ++ l₂) n with
      | some v => some v
      | none =>
        if attrTruthyName a = some n then some (a.value.getD "") else none) = _
    rw [ih]
    cases h : lastValueFor l₂ n with
    | some v => rfl
    | none => rfl

theorem lastValueFor_append_one {l : List Attr} {a : Attr} {n : String} :
    lastValueFor (l ++ [a]) n =
      if attrTruthyName a = some n then some (a.value.getD "")
      else lastValueFor l n := by
  rw [lastValueFor_append]
  by_cases h : attrTruthyName a = some n
  · simp [lastValueFor, h]
  · simp [lastValueFor, h]

/-!  Positional description of `overwriteAt`. -/

theorem length_owAux (E D : List Attr) (k : Nat) (l : List Attr) :
    (owAux E D k l).length = l.length := by
  induction l generalizing k with
  | nil => rfl
  | cons a t ih => simp [owAux, ih]

theorem getElem?_owAux (E D : List Attr) (k : Nat) (l : List Attr) (j : Nat) :
    (owAux E D k l)[j]? = (l[j]?).map (owFun E D (k + j)) := by
  induction l generalizing k j with
  | nil => simp [owAux]
  | cons a t ih =>
    cases j with
    | zero => simp [owAux]
    | succ j =>
      simp only [owAux, List.getElem?_cons_succ, ih]
      have : k + 1 + j = k + (j + 1) := by omega
      rw [this]

theorem length_overwriteAt (E D : List Attr) :
    (overwriteAt E D).length = E.length :=
  length_owAux E D 0 E

theorem getElem?_overwriteAt (E D : List Attr) (j : Nat) :
    (overwriteAt E D)[j]? = (E[j]?).map (owFun E D j) := by
  have := getElem?_owAux E D 0 E j
  simpa using this

theorem attrTruthyName_owFun (E D : List Attr) (i : Nat) (a : Attr) :
    attrTruthyName (owFun E D i a) = attrTruthyName a := by
  cases h : attrTruthyName a with
  | none => simp [owFun, h]
  | some n =>
    obtain ⟨hname, hne⟩ := attrTruthyName_eq_some h
    simp only [owFun, h]
    by_cases hi : lastIdxOf E n = some i
    · rw [if_pos hi]
      cases hv : lastValueFor D n with
      | none => exact h
      | some v => simp [attrTruthyName, hne]
    · rw [if_neg hi]; exact h

theorem owFun_nil (E : List Attr) (i : Nat) (a : Attr) :
    owFun E [] i a = a := by
  cases h : attrTruthyName a with
  | none => simp [owFun, h]
  | some n =>
    simp only [owFun, h]
    by_cases hi : lastIdxOf E n = some i
    · rw [if_pos hi]; rfl
    · rw [if_neg hi]

theorem owFun_congr {E D D' : List Attr}
    (h : ∀ n, lastIdxOf E n ≠ none → lastValueFor D n = lastValueFor D' n)
    (i : Nat) (a : Attr) : owFun E D i a = owFun E D' i a := by
  cases ha : attrTruthyName a with
  | none => simp [owFun, ha]
  | some n =>
    simp only [owFun, ha]
    by_cases hi : lastIdxOf E n = some i
    · rw [if_pos hi, if_pos hi, h n (by rw [hi]; simp)]
    · rw [if_neg hi, if_neg hi]

theorem overwriteAt_congr {E D D' : List Attr}
    (h : ∀ n, lastIdxOf E n ≠ none → lastValueFor D n = lastValueFor D' n) :
    overwriteAt E D = overwriteAt E D' := by
  apply List.ext_getElem?
  intro j
  rw [getElem?_overwriteAt, getElem?_overwriteAt]
  cases hj : E[j]? with
  | none => rfl
  | some a => simp [owFun_congr h]

theorem overwriteAt_nil (E : List Attr) : overwriteAt E [] = E := by
  apply List.ext_getElem?
  intro j
  rw [getElem?_overwriteAt]
  cases hj : E[j]? with
  | none => rfl
  | some a => simp [owFun_nil]

theorem lastIdxOf_owAux (E D : List Attr) (k : Nat) (l : List Attr) (n : String) :
    lastIdxOf (owAux E D k l) n = lastIdxOf l n := by
  induction l generalizing k with
  | nil => rfl
  | cons a t ih =>
    show (match lastIdxOf (owAux E D (k + 1) t) n with
      | some i => some (i + 1)
      | none =>
        if attrTruthyName (owFun E D k a) = some n then some 0 else none) = _
    rw [ih, attrTruthyName_owFun]
    rfl

theorem lastIdxOf_overwriteAt (E D : List Attr) (n : String) :
    lastIdxOf (overwriteAt E D) n = lastIdxOf E n :=
  lastIdxOf_owAux E D 0 E n

/-!  How one extra incoming attribute changes the spec-side decomposition. -/

theorem owFun_append_one_ne {E D : List Attr} {a : Attr} {n : String} {i : Nat}
    (h : attrTruthyName a = some n) (hE : lastIdxOf E n = some i)
    {j : Nat} (hj : j ≠ i) (c : Attr) :
    owFun E (D ++ [a]) j c = owFun E D j c := by
  cases hc : attrTruthyName c with
  | none => simp [owFun, hc]
  | some m =>
    simp only [owFun, hc]
    by_cases hm : lastIdxOf E m = some j
    · have hmn : m ≠ n := by
        intro hcon
        subst hcon
        rw [hE] at hm
        injection hm with hm
        exact hj hm.symm
      rw [if_pos hm, if_pos hm, lastValueFor_append_one,
        if_neg (by rw [h]; simp [Ne.symm hmn])]
    · rw [if_neg hm, if_neg hm]

theorem overwriteAt_append_one_of_none {E D : List Attr} {a : Attr} {n : String}
    (h : attrTruthyName a = some n) (hE : lastIdxOf E n = none) :
    overwriteAt E (D ++ [a]) = overwriteAt E D := by
  apply overwriteAt_congr
  intro m hm
  rw [lastValueFor_append_one, if_neg]
  rw [h]
  intro hcon
  injection hcon with hcon
  subst hcon
  exact hm hE

theorem overwriteAt_append_one_none_name {E D : List Attr} {a : Attr}
    (h : attrTruthyName a = none) :
    overwriteAt E (D ++ [a]) = overwriteAt E D := by
  apply overwriteAt_congr
  intro m _
  rw [lastValueFor_append_one, if_neg (by rw [h]; simp)]

theorem overwriteAt_append_one_of_some {E D : List Attr} {a : Attr} {n : String} {i : Nat}
    (h : attrTruthyName a = some n) (hE : lastIdxOf E n = some i) :
    overwriteAt E (D ++ [a]) = (overwriteAt E D).set i (coerceAttr a) := by
  obtain ⟨b, hb, hbn⟩ := lastIdxOf_eq_some hE
  have hilt : i < E.length := (List.getElem?_eq_some.mp hb).1
  apply List.ext_getElem?
  intro j
  by_cases hj : j = i
  · subst hj
    rw [getElem?_overwriteAt, List.getElem?_set_self (by rw [length_overwriteAt]; exact hilt), hb]
    simp only [Option.map_some']
    simp only [owFun, hbn, if_pos hE, lastValueFor_append_one, if_pos h]
    obtain ⟨hname, _⟩ := attrTruthyName_eq_some h
    simp [coerceAttr, hname]
  · rw [getElem?_overwriteAt, List.getElem?_set_ne (by omega), getElem?_overwriteAt]
    cases hc : E[j]? with
    | none => rfl
    | some c =>
      simp only [Option.map_some']
      rw [owFun_append_one_ne h hE hj]

theorem appendedNew_append_one_of_none {E D : List Attr} {a : Attr} {n : String}
    (h : attrTruthyName a = some n) (hE : lastIdxOf E n = none) :
    appendedNew E (D ++ [a]) = appendedNew E D ++ [coerceAttr a] := by
  rw [appendedNew, List.filterMap_append]
  congr 1
  simp [List.filterMap_cons, newKeep, h, hE]

theorem appendedNew_append_one_of_some {E D : List Attr} {a : Attr} {n : String} {i : Nat}
    (h : attrTruthyName a = some n) (hE : lastIdxOf E n = some i) :
    appendedNew E (D ++ [a]) = appendedNew E D := by
  rw [appendedNew, List.filterMap_append]
  have : List.filterMap (newKeep E) [a] = [] := by
    simp [List.filterMap_cons, newKeep, h, hE]
  rw [this, List.append_nil]
  rfl

theorem appendedNew_append_one_none_name {E D : List Attr} {a : Attr}
    (h : attrTruthyName a = none) :
    appendedNew E (D ++ [a]) = appendedNew E D := by
  rw [appendedNew, List.filterMap_append]
  have : List.filterMap (newKeep E) [a] = [] := by
    simp [List.filterMap_cons, newKeep, h]
  rw [this, List.append_nil]
  rfl

/-- The merge loop of the source computes exactly the spec's name-keyed
upsert. -/
theorem mergeNoteAttributes_eq_mergeSpec (E D : List Attr) :
    mergeNoteAttributes E D = mergeSpec E D := by
  induction D using List.reverseRecOn with
  | nil =>
    show E = mergeSpec E []
    rw [mergeSpec, overwriteAt_nil]
    simp [appendedNew]
  | append_singleton D a ih =>
    have hstep : mergeNoteAttributes E (D ++ [a]) =
        mergeStep E (mergeNoteAttributes E D) a := by
      simp [mergeNoteAttributes, List.foldl_append]
    rw [hstep, ih]
    cases h : attrTruthyName a with
    | none =>
      rw [mergeSpec, mergeSpec, overwriteAt_append_one_none_name h,
        appendedNew_append_one_none_name h]
      simp [mergeStep, h]
    | some n =>
      cases hE : lastIdxOf E n with
      | none =>
        rw [mergeSpec, mergeSpec, overwriteAt_append_one_of_none h hE,
          appendedNew_append_one_of_none h hE]
        simp only [mergeStep, h, hE]
        rw [List.append_assoc]
      | some i =>
        obtain ⟨b, hb, hbn⟩ := lastIdxOf_eq_some hE
        have hilt : i < E.length := (List.getElem?_eq_some.mp hb).1
        rw [mergeSpec, mergeSpec, overwriteAt_append_one_of_some h hE,
          appendedNew_append_one_of_some h hE]
        simp only [mergeStep, h, hE]
        rw [List.set_append, if_pos (by rw [length_overwriteAt]; exact hilt)]

/-!  Structure of the appended block, towards idempotence. -/

theorem appendedNew_cons_none {E : List Attr} {a : Attr} (D : List Attr)
    (hk : newKeep E a = none) :
    appendedNew E (a :: D) = appendedNew E D := by
  simp [appendedNew, List.filterMap_cons, hk]

theorem appendedNew_cons_some {E : List Attr} {a b : Attr} (D : List Attr)
    (hk : newKeep E a = some b) :
    appendedNew E (a :: D) = b :: appendedNew E D := by
  simp [appendedNew, List.filterMap_cons, hk]

theorem newKeep_eq_some {E : List Attr} {a b : Attr}
    (h : newKeep E a = some b) :
    ∃ m, attrTruthyName a = some m ∧ lastIdxOf E m = none ∧ b = coerceAttr a := by
  cases hn : attrTruthyName a with
  | none => simp [newKeep, hn] at h
  | some m =>
    cases hE : lastIdxOf E m with
    | some i => simp [newKeep, hn, hE] at h
    | none =>
      simp only [newKeep, hn, hE] at h
      injection h with h
      exact ⟨m, rfl, hE, h.symm⟩

theorem mem_appendedNew {E D : List Attr} {x : Attr} (hx : x ∈ appendedNew E D) :
    ∃ a ∈ D, ∃ m, attrTruthyName a = some m ∧ lastIdxOf E m = none ∧ x = coerceAttr a := by
  rw [appendedNew] at hx
  obtain ⟨a, ha, hfa⟩ := List.mem_filterMap.mp hx
  obtain ⟨m, hm, hEm, hxa⟩ := newKeep_eq_some hfa
  exact ⟨a, ha, m, hm, hEm, hxa⟩

theorem lastIdxOf_appendedNew_of_some {E D : List Attr} {n : String} {i : Nat}
    (hE : lastIdxOf E n = some i) : lastIdxOf (appendedNew E D) n = none := by
  rw [lastIdxOf_eq_none_iff]
  intro x hx hxn
  obtain ⟨a, _, m, hm, hEm, hxa⟩ := mem_appendedNew hx
  subst hxa
  rw [attrTruthyName_coerceAttr, hm] at hxn
  injection hxn with hxn
  subst hxn
  rw [hEm] at hE
  exact absurd hE (by simp)

theorem lastIdxOf_appendedNew_ne_none {E D : List Attr} {n : String}
    (hE : lastIdxOf E n = none) (hv : lastValueFor D n ≠ none) :
    lastIdxOf (appendedNew E D) n ≠ none := by
  have hex : ¬ ∀ a ∈ D, attrTruthyName a ≠ some n := fun hall =>
    hv (lastValueFor_eq_none_iff.mpr hall)
  push_neg at hex
  obtain ⟨a, ha, hna⟩ := hex
  intro hnone
  have hmem : coerceAttr a ∈ appendedNew E D := by
    rw [appendedNew]
    exact List.mem_filterMap.mpr ⟨a, ha, by simp [newKeep, hna, hE]⟩
  exact (lastIdxOf_eq_none_iff.mp hnone) _ hmem
    (by rw [attrTruthyName_coerceAttr, hna])

theorem lastValueFor_cons_of_some {D : List Attr} {n v : String} (a : Attr)
    (h : lastValueFor D n = some v) : lastValueFor (a :: D) n = some v := by
  show (match lastValueFor D n with
    | some v => some v
    | none =>
      if attrTruthyName a = some n then some (a.value.getD "") else none) = some v
  rw [h]

theorem appendedNew_last_getElem {E : List Attr} {n : String} :
    ∀ {D : List Attr} {j : Nat}, lastIdxOf (appendedNew E D) n = some j →
    ∃ v, lastValueFor D n = some v ∧
      (appendedNew E D)[j]? = some ⟨some n, some v⟩ := by
  intro D
  induction D with
  | nil =>
    intro j h
    simp [appendedNew, lastIdxOf] at h
  | cons a D ih =>
    intro j h
    cases hk : newKeep E a with
    | none =>
      rw [appendedNew_cons_none D hk] at h ⊢
      obtain ⟨v, hv, hget⟩ := ih h
      exact ⟨v, lastValueFor_cons_of_some a hv, hget⟩
    | some b =>
      rw [appendedNew_cons_some D hk] at h ⊢
      obtain ⟨m, hm, hEm, hb⟩ := newKeep_eq_some hk
      cases hA : lastIdxOf (appendedNew E D) n with
      | some i =>
        have hj : j = i + 1 := by
          have : lastIdxOf (b :: appendedNew E D) n = some (i + 1) := by
            show (match lastIdxOf (appendedNew E D) n with
              | some i => some (i + 1)
              | none =>
                if attrTruthyName b = some n then some 0 else none) = some (i + 1)
            rw [hA]
          rw [this] at h
          injection h with h
          exact h.symm
        subst hj
        obtain ⟨v, hv, hget⟩ := ih hA
        exact ⟨v, lastValueFor_cons_of_some a hv, by simpa using hget⟩
      | none =>
        have hbone : lastIdxOf (b :: appendedNew E D) n =
            if attrTruthyName b = some n then some 0 else none := by
          show (match lastIdxOf (appendedNew E D) n with
            | some i => some (i + 1)
            | none =>
              if attrTruthyName b = some n then some 0 else none) = _
          rw [hA]
        rw [hbone] at h
        by_cases hbn : attrTruthyName b = some n
        · rw [if_pos hbn] at h
          injection h with h
          subst h
          have hmn : m = n := by
            rw [hb, attrTruthyName_coerceAttr, hm] at hbn
            injection hbn
          have hm2 : attrTruthyName a = some n := by rw [hm, hmn]
          have hEm2 : lastIdxOf E n = none := by rw [← hmn]; exact hEm
          have hDnone : lastValueFor D n = none := by
            by_contra hcon
            exact (lastIdxOf_appendedNew_ne_none hEm2 hcon) hA
          refine ⟨a.value.getD "", ?_, ?_⟩
          · show (match lastValueFor D n with
              | some v => some v
              | none =>
                if attrTruthyName a = some n then
                  some (a.value.getD "") else none) = _
            rw [hDnone, if_pos hm2]
          · obtain ⟨hname, _⟩ := attrTruthyName_eq_some hm2
            simp [hb, coerceAttr, hname]
        · rw [if_neg hbn] at h
          exact absurd h (by simp)

/-- The appended block of a second merge with the same incoming list is
empty: every incoming truthy name already occurs in the merged list. -/
theorem appendedNew_mergeSpec (E D : List Attr) :
    appendedNew (mergeSpec E D) D = [] := by
  rw [appendedNew]
  refine List.filterMap_eq_nil.mpr fun a ha => ?_
  cases hn : attrTruthyName a with
  | none => simp [newKeep, hn]
  | some n =>
    have hne : lastIdxOf (mergeSpec E D) n ≠ none := by
      rw [mergeSpec]
      cases hA : lastIdxOf (appendedNew E D) n with
      | some i => rw [lastIdxOf_append_of_some hA]; simp
      | none =>
        rw [lastIdxOf_append_of_none hA, lastIdxOf_overwriteAt]
        cases hE : lastIdxOf E n with
        | some i => simp
        | none =>
          exact absurd hA
            (lastIdxOf_appendedNew_ne_none hE (lastValueFor_ne_none ha hn))
    cases hM : lastIdxOf (mergeSpec E D) n with
    | none => exact absurd hM hne
    | some i => simp [newKeep, hn, hM]

/-- A second overwrite pass with the same incoming list changes nothing:
every slot it would touch already holds the last incoming value. -/
theorem overwriteAt_mergeSpec (E D : List Attr) :
    overwriteAt (mergeSpec E D) D = mergeSpec E D := by
  apply List.ext_getElem?
  intro j
  rw [getElem?_overwriteAt]
  cases hj : (mergeSpec E D)[j]? with
  | none => rfl
  | some b =>
    simp only [Option.map_some']
    congr 1
    cases hn : attrTruthyName b with
    | none => simp [owFun, hn]
    | some n =>
      simp only [owFun, hn]
      by_cases hM : lastIdxOf (mergeSpec E D) n = some j
      · rw [if_pos hM]
        cases hv : lastValueFor D n with
        | none => rfl
        | some v =>
          by_cases hlt : j < E.length
          · have hOj : lastIdxOf (appendedNew E D) n = none := by
              cases hA : lastIdxOf (appendedNew E D) n with
              | none => rfl
              | some i =>
                rw [mergeSpec] at hM
                rw [lastIdxOf_append_of_some hA, length_overwriteAt] at hM
                injection hM with hM
                omega
            have hEn : lastIdxOf E n = some j := by
              rw [mergeSpec, lastIdxOf_append_of_none hOj, lastIdxOf_overwriteAt] at hM
              exact hM
            obtain ⟨c, hc, hcn⟩ := lastIdxOf_eq_some hEn
            have hjc : (mergeSpec E D)[j]? = some (owFun E D j c) := by
              rw [mergeSpec, List.getElem?_append_left (by rw [length_overwriteAt]; exact hlt),
                getElem?_overwriteAt, hc, Option.map_some']
            rw [hj] at hjc
            injection hjc with hjc
            rw [hjc]
            simp only [owFun, hcn, if_pos hEn, hv]
          · have hA : ∃ i, lastIdxOf (appendedNew E D) n = some i ∧
                j = E.length + i := by
              cases hA : lastIdxOf (appendedNew E D) n with
              | some i =>
                rw [mergeSpec, lastIdxOf_append_of_some hA, length_overwriteAt] at hM
                injection hM with hM
                exact ⟨i, rfl, hM.symm⟩
              | none =>
                rw [mergeSpec, lastIdxOf_append_of_none hA, lastIdxOf_overwriteAt] at hM
                obtain ⟨c, hc, _⟩ := lastIdxOf_eq_some hM
                exact absurd ((List.getElem?_eq_some.mp hc).1) hlt
            obtain ⟨i, hAi, hji⟩ := hA
            obtain ⟨v2, hv2, hget2⟩ := appendedNew_last_getElem hAi
            rw [hv] at hv2
            injection hv2 with hv2
            have : (mergeSpec E D)[j]? = some (⟨some n, some v2⟩ : Attr) := by
              rw [mergeSpec, List.getElem?_append_right (by rw [length_overwriteAt]; omega),
                length_overwriteAt]
              rw [show j - E.length = i from by omega]
              exact hget2
            rw [hj] at this
            injection this with this
            rw [this, hv2]
      · rw [if_neg hM]

/-- Applying the merge a second time with the same incoming attributes is
a no-op. -/
theorem mergeNoteAttributes_idem (E D : List Attr) :
    mergeNoteAttributes (mergeNoteAttributes E D) D = mergeNoteAttributes E D := by
  rw [mergeNoteAttributes_eq_mergeSpec E D,
    mergeNoteAttributes_eq_mergeSpec (mergeSpec E D) D]
  show overwriteAt (mergeSpec E D) D ++ appendedNew (mergeSpec E D) D = _
  rw [overwriteAt_mergeSpec, appendedNew_mergeSpec, List.append_nil]

/-!  Handler lemmas: authentication, statuses and call lists. -/

theorem timingSafeEqual_eq_true_iff (a b : List Nat) :
    timingSafeEqual a b = true ↔ a = b := by
  rw [timingSafeEqual]
  by_cases h : a.length ≠ b.length
  · rw [if_pos h]
    constructor
    · intro hcon; exact absurd hcon (by simp)
    · intro hab; subst hab; exact absurd rfl h
  · rw [if_neg h]
    exact beq_iff_eq

theorem timingSafeEqual_of_length_ne {a b : List Nat}
    (h : a.length ≠ b.length) : timingSafeEqual a b = false :=
  if_pos h

theorem draftPhase_status (w : World) (oid : Nat) (ord : OrderResource) :
    (draftPhase w oid ord).status = 200 := by
  unfold draftPhase
  repeat' first
  | rfl
  | split
  | dsimp only

theorem taggedAfterOrder_status (w : World) (oid : Nat) (ord : OrderResource) :
    (taggedAfterOrder w oid ord).status = 200 := by
  unfold taggedAfterOrder
  split
  · exact draftPhase_status w oid ord
  · rfl

theorem orderPhase_status {w : World} {raw : List Nat}
    {afterOrder : Nat → OrderResource → HResult}
    (hafter : ∀ oid ord, (afterOrder oid ord).status = 200) :
    (orderPhase w raw afterOrder).status = 200 ∨
    (orderPhase w raw afterOrder).status = 400 := by
  rw [orderPhase]
  split
  · right; rfl
  split
  · left; rfl
  split
  · left; rfl
  · left; exact hafter _ _

theorem orderPhase_status_eq_400_iff {w : World} {raw : List Nat}
    {afterOrder : Nat → OrderResource → HResult}
    (hafter : ∀ oid ord, (afterOrder oid ord).status = 200) :
    (orderPhase w raw afterOrder).status = 400 ↔ w.parse raw = none := by
  rw [orderPhase]
  cases hp : w.parse raw with
  | none => simp
  | some ev =>
    dsimp only
    cases truthyId ev.id with
    | none => simp
    | some oid =>
      dsimp only
      cases w.fetchOrder oid with
      | none => simp
      | some ord =>
        dsimp only
        rw [hafter oid ord]
        simp

theorem handlerV1_not_post {env : Env} {w : World} {req : Request}
    (h : req.method ≠ "POST") : handlerV1 env w req = ⟨200, "OK", []⟩ := by
  simp [handlerV1, h]

theorem handlerV2_not_post {env : Env} {w : World} {req : Request}
    (h : req.method ≠ "POST") : handlerV2 env w req = ⟨200, "OK", []⟩ := by
  simp [handlerV2, h]

theorem handlerV1_auth_ok {env : Env} {w : World} {req : Request} {s hb : List Nat}
    (hm : req.method = "POST") (hs : env.secret = some s)
    (hh : req.hmacHeader = some hb) (hsne : s ≠ []) (hhne : hb ≠ [])
    (ht : timingSafeEqual (w.hmac s req.rawBody) hb = true) :
    handlerV1 env w req = orderPhase w req.rawBody (draftPhase w) := by
  simp [handlerV1, hm, hs, hh, hsne, hhne, ht]

theorem handlerV2_auth_ok {env : Env} {w : World} {req : Request} {s hb : List Nat}
    (hm : req.method = "POST") (hs : env.secret = some s)
    (hh : req.hmacHeader = some hb) (hsne : s ≠ []) (hhne : hb ≠ [])
    (ht : timingSafeEqual (w.hmac s req.rawBody) hb = true) :
    handlerV2 env w req = orderPhase w req.rawBody (taggedAfterOrder w) := by
  simp [handlerV2, hm, hs, hh, hsne, hhne, ht]

theorem authFails_eq_false_iff {env : Env} {w : World} {req : Request} :
    authFails env w req = false ↔
      ∃ s hb, env.secret = some s ∧ req.hmacHeader = some hb ∧
        s ≠ [] ∧ hb ≠ [] ∧ w.hmac s req.rawBody = hb := by
  cases hs : env.secret with
  | none =>
    simp [authFails, secretMissing, hs]
  | some s =>
    cases hh : req.hmacHeader with
    | none => simp [authFails, secretMissing, headerMissing, hs, hh]
    | some hb =>
      by_cases hse : s = []
      · simp [authFails, secretMissing, hs, hse]
      · by_cases hhe : hb = []
        · simp [authFails, secretMissing, headerMissing, hs, hh, hse, hhe]
        · simp [authFails, secretMissing, headerMissing, hs, hh, hse, hhe,
            List.isEmpty_iff]

theorem handlerV1_auth_fail {env : Env} {w : World} {req : Request}
    (hm : req.method = "POST") (hf : authFails env w req = true) :
    (handlerV1 env w req).status = 401 ∧ (handlerV1 env w req).calls = [] := by
  cases hs : env.secret with
  | none => simp [handlerV1, hm, hs]
  | some s =>
    cases hh : req.hmacHeader with
    | none => simp [handlerV1, hm, hs, hh]
    | some hb =>
      by_cases hse : s = [] ∨ hb = []
      · simp [handlerV1, hm, hs, hh, hse]
      · push_neg at hse
        obtain ⟨hsne, hhne⟩ := hse
        have hne : w.hmac s req.rawBody ≠ hb := by
          simp [authFails, secretMissing, headerMissing, hs, hh,
            List.isEmpty_iff, hsne, hhne] at hf
          exact hf
        have ht : timingSafeEqual (w.hmac s req.rawBody) hb = false := by
          cases htv : timingSafeEqual (w.hmac s req.rawBody) hb with
          | false => rfl
          | true => exact absurd ((timingSafeEqual_eq_true_iff _ _).mp htv) hne
        simp [handlerV1, hm, hs, hh, hsne, hhne, ht]

theorem handlerV2_auth_fail {env : Env} {w : World} {req : Request}
    (hm : req.method = "POST") (hf : authFails env w req = true) :
    (handlerV2 env w req).status = 401 ∧ (handlerV2 env w req).calls = [] := by
  cases hs : env.secret with
  | none => simp [handlerV2, hm, hs]
  | some s =>
    cases hh : req.hmacHeader with
    | none => simp [handlerV2, hm, hs, hh]
    | some hb =>
      by_cases hse : s = [] ∨ hb = []
      · simp [handlerV2, hm, hs, hh, hse]
      · push_neg at hse
        obtain ⟨hsne, hhne⟩ := hse
        have hne : w.hmac s req.rawBody ≠ hb := by
          simp [authFails, secretMissing, headerMissing, hs, hh,
            List.isEmpty_iff, hsne, hhne] at hf
          exact hf
        have ht : timingSafeEqual (w.hmac s req.rawBody) hb = false := by
          cases htv : timingSafeEqual (w.hmac s req.rawBody) hb with
          | false => rfl
          | true => exact absurd ((timingSafeEqual_eq_true_iff _ _).mp htv) hne
        simp [handlerV2, hm, hs, hh, hsne, hhne, ht]

/-!  Pointwise consequences of the merge characterisation. -/

theorem owFun_name (E D : List Attr) (i : Nat) (a : Attr) :
    (owFun E D i a).name = a.name := by
  cases h : attrTruthyName a with
  | none => simp [owFun, h]
  | some n =>
    obtain ⟨hname, _⟩ := attrTruthyName_eq_some h
    simp only [owFun, h]
    by_cases hi : lastIdxOf E n = some i
    · rw [if_pos hi]
      cases hv : lastValueFor D n with
      | none => rfl
      | some v => simp [hname]
    · rw [if_neg hi]

theorem owFun_of_truthy_none {a : Attr} (h : attrTruthyName a = none)
    (E D : List Attr) (i : Nat) : owFun E D i a = a := by
  simp [owFun, h]

theorem owFun_of_not_last {E : List Attr} {a : Attr} {n : String} {i : Nat}
    (h : attrTruthyName a = some n) (hi : lastIdxOf E n ≠ some i)
    (D : List Attr) : owFun E D i a = a := by
  simp only [owFun, h]
  rw [if_neg hi]

theorem owFun_changed {E D : List Attr} {i : Nat} {a : Attr}
    (h : owFun E D i a ≠ a) :
    ∃ n v, attrTruthyName a = some n ∧ lastIdxOf E n = some i ∧
      lastValueFor D n = some v ∧ owFun E D i a = ⟨some n, some v⟩ := by
  cases ha : attrTruthyName a with
  | none => exact absurd (owFun_of_truthy_none ha E D i) h
  | some n =>
    by_cases hi : lastIdxOf E n = some i
    · cases hv : lastValueFor D n with
      | none =>
        have hfix : owFun E D i a = a := by
          simp only [owFun, ha]
          rw [if_pos hi, hv]
        exact absurd hfix h
      | some v =>
        refine ⟨n, v, rfl, hi, hv, ?_⟩
        simp only [owFun, ha]
        rw [if_pos hi, hv]
    · exact absurd (owFun_of_not_last ha hi D) h

theorem getElem?_merge_left {E D : List Attr} {j : Nat} (h : j < E.length) :
    (mergeNoteAttributes E D)[j]? = (E[j]?).map (owFun E D j) := by
  rw [mergeNoteAttributes_eq_mergeSpec, mergeSpec,
    List.getElem?_append_left (by rw [length_overwriteAt]; exact h),
    getElem?_overwriteAt]

theorem getElem?_merge_right {E D : List Attr} {j : Nat} (h : E.length ≤ j) :
    (mergeNoteAttributes E D)[j]? = (appendedNew E D)[j - E.length]? := by
  rw [mergeNoteAttributes_eq_mergeSpec, mergeSpec,
    List.getElem?_append_right (by rw [length_overwriteAt]; exact h),
    length_overwriteAt]

theorem length_merge (E D : List Attr) :
    (mergeNoteAttributes E D).length = E.length + (appendedNew E D).length := by
  rw [mergeNoteAttributes_eq_mergeSpec, mergeSpec, List.length_append,
    length_overwriteAt]

theorem merge_name_preserved {E D : List Attr} {j : Nat} {a : Attr}
    (hj : E[j]? = some a) :
    ∃ b, (mergeNoteAttributes E D)[j]? = some b ∧ b.name = a.name := by
  have hlt : j < E.length := (List.getElem?_eq_some.mp hj).1
  rw [getElem?_merge_left hlt, hj, Option.map_some']
  exact ⟨owFun E D j a, rfl, owFun_name E D j a⟩

theorem mergeStep_of_truthy_none {E : List Attr} {a : Attr}
    (h : attrTruthyName a = none) (out : List Attr) : mergeStep E out a = out := by
  simp [mergeStep, h]

theorem merge_filter_truthy (E D : List Attr) :
    mergeNoteAttributes E (D.filter fun a => (attrTruthyName a).isSome) =
    mergeNoteAttributes E D := by
  rw [mergeNoteAttributes, mergeNoteAttributes]
  suffices h : ∀ init : List Attr,
      (D.filter fun a => (attrTruthyName a).isSome).foldl (mergeStep E) init =
      D.foldl (mergeStep E) init from h E
  intro init
  induction D generalizing init with
  | nil => rfl
  | cons a t ih =>
    by_cases ha : (attrTruthyName a).isSome
    · rw [List.filter_cons, if_pos ha, List.foldl_cons, List.foldl_cons, ih]
    · have hn : attrTruthyName a = none := by
        cases hh : attrTruthyName a with
        | none => rfl
        | some m => rw [hh] at ha; simp at ha
      rw [List.filter_cons, if_neg ha, ih, List.foldl_cons,
        mergeStep_of_truthy_none hn]

theorem merge_untouched_nameless {E D : List Attr} {j : Nat} {a : Attr}
    (hj : E[j]? = some a) (h : attrTruthyName a = none) :
    (mergeNoteAttributes E D)[j]? = some a := by
  have hlt : j < E.length := (List.getElem?_eq_some.mp hj).1
  rw [getElem?_merge_left hlt, hj, Option.map_some', owFun_of_truthy_none h]

theorem mergeStep_coerce (E out : List Attr) (a : Attr) :
    mergeStep E out (coerceAttr a) = mergeStep E out a := by
  have hcc : coerceAttr (coerceAttr a) = coerceAttr a := by simp [coerceAttr]
  rw [mergeStep, mergeStep, attrTruthyName_coerceAttr, hcc]

theorem merge_map_coerce (E D : List Attr) :
    mergeNoteAttributes E (D.map coerceAttr) = mergeNoteAttributes E D := by
  rw [mergeNoteAttributes, mergeNoteAttributes, List.foldl_map]
  congr 1
  funext out a
  exact mergeStep_coerce E out a

theorem merge_value_none_from_existing {E D : List Attr} {j : Nat} {x : Attr}
    (hj : (mergeNoteAttributes E D)[j]? = some x) (hx : x.value = none) :
    E[j]? = some x := by
  by_cases hlt : j < E.length
  · rw [getElem?_merge_left hlt] at hj
    cases he : E[j]? with
    | none => rw [he] at hj; simp at hj
    | some c =>
      rw [he] at hj
      simp only [Option.map_some'] at hj
      injection hj with hj
      by_cases hch : owFun E D j c = c
      · rw [hch] at hj
        rw [← hj]
      · obtain ⟨n, v, _, _, _, heq⟩ := owFun_changed hch
        rw [heq] at hj
        rw [← hj] at hx
        simp at hx
  · push_neg at hlt
    rw [getElem?_merge_right hlt] at hj
    have hmem : x ∈ appendedNew E D := List.getElem?_mem hj
    obtain ⟨a, _, m, hm, _, hxa⟩ := mem_appendedNew hmem
    rw [hxa] at hx
    simp [coerceAttr] at hx

theorem merge_earlier_duplicate_unchanged {E D : List Attr} {i j : Nat}
    {n : String} {a b : Attr}
    (hi : E[i]? = some a) (hj : E[j]? = some b) (hij : i < j)
    (hna : attrTruthyName a = some n) (hnb : attrTruthyName b = some n) :
    (mergeNoteAttributes E D)[i]? = some a := by
  have hlt : i < E.length := (List.getElem?_eq_some.mp hi).1
  rw [getElem?_merge_left hlt, hi, Option.map_some']
  congr 1
  obtain ⟨k, hk, hjk⟩ := lastIdxOf_ge hj hnb
  refine owFun_of_not_last hna ?_ D
  rw [hk]
  intro hcon
  injection hcon with hcon
  omega

theorem merge_last_occurrence_overwritten {E D : List Attr} {n : String}
    {i : Nat} {v : String}
    (hE : lastIdxOf E n = some i) (hv : lastValueFor D n = some v) :
    (mergeNoteAttributes E D)[i]? = some ⟨some n, some v⟩ := by
  obtain ⟨c, hc, hcn⟩ := lastIdxOf_eq_some hE
  have hlt : i < E.length := (List.getElem?_eq_some.mp hc).1
  rw [getElem?_merge_left hlt, hc, Option.map_some']
  congr 1
  simp only [owFun, hcn]
  rw [if_pos hE, hv]

theorem lastValueFor_some_exists {D : List Attr} {n v : String}
    (h : lastValueFor D n = some v) : ∃ a ∈ D, attrTruthyName a = some n := by
  by_contra hc
  push_neg at hc
  rw [lastValueFor_eq_none_iff.mpr hc] at h
  exact absurd h (by simp)

theorem wantedP_name {a : Attr} (h : wantedP a = true) :
    ∃ n, a.name = some n ∧ n ∈ wantedNames := by
  cases hn : a.name with
  | none => simp [wantedP, hn] at h
  | some n =>
    simp only [wantedP, hn] at h
    exact ⟨n, rfl, by simpa using h⟩

/-!  Evaluation of the later pipeline stages under known outcomes. -/

theorem orderPhase_eval {w : World} {raw : List Nat}
    {afterOrder : Nat → OrderResource → HResult} {ev : OrderEvent}
    {oid : Nat} {ord : OrderResource}
    (hp : w.parse raw = some ev) (hid : truthyId ev.id = some oid)
    (ho : w.fetchOrder oid = some ord) :
    orderPhase w raw afterOrder = afterOrder oid ord := by
  simp [orderPhase, hp, hid, ho]

theorem draftPhase_no_draft_link {w : World} {oid : Nat} {ord : OrderResource}
    (h : truthyId ord.draft_order_id = none) :
    draftPhase w oid ord = ⟨200, "No draft link", [RemoteCall.getOrder oid]⟩ := by
  simp [draftPhase, h]

theorem taggedAfterOrder_no_marker {w : World} {oid : Nat} {ord : OrderResource}
    (h : strContains (lowerStr (ord.tags.getD "")) samitaMarker = false) :
    taggedAfterOrder w oid ord =
      ⟨200, "Not a Samita order", [RemoteCall.getOrder oid]⟩ := by
  simp [taggedAfterOrder, h]

theorem taggedAfterOrder_marker {w : World} {oid : Nat} {ord : OrderResource}
    (h : strContains (lowerStr (ord.tags.getD "")) samitaMarker = true) :
    taggedAfterOrder w oid ord = draftPhase w oid ord := by
  simp [taggedAfterOrder, h]

/-!  Claim theorems. -/

/-- C1: `mergeNoteAttributes` is exactly the spec's name-keyed upsert —
every existing attribute keeps its order and position, a draft attribute
whose name already occurs overwrites that entry's value in place without
creating a duplicate, and a draft attribute whose name is new is appended
at the end in incoming order; in particular the two examples of the claim
evaluate as stated. -/
theorem claim_C1 :
    (∀ existing incoming : List Attr,
      mergeNoteAttributes existing incoming = mergeSpec existing incoming) ∧
    mergeNoteAttributes [⟨some "Gift", some "yes"⟩]
        [⟨some "Delivery-Date", some "2024-05-01"⟩] =
      [⟨some "Gift", some "yes"⟩, ⟨some "Delivery-Date", some "2024-05-01"⟩] ∧
    mergeNoteAttributes [⟨some "Delivery-Date", some "old"⟩]
        [⟨some "Delivery-Date", some "new"⟩] =
      [⟨some "Delivery-Date", some "new"⟩] :=
  ⟨mergeNoteAttributes_eq_mergeSpec, by decide, by decide⟩

/-- C3: merging the same filtered attribute set into an already-merged
list is a no-op — the second application returns a structurally identical
list. -/
theorem claim_C3 : ∀ existing incoming : List Attr,
    mergeNoteAttributes (mergeNoteAttributes existing incoming) incoming =
      mergeNoteAttributes existing incoming :=
  mergeNoteAttributes_idem

/-- C8: attributes with no (truthy) name take no part in the merge —
dropping nameless incoming attributes does not change the result, and a
nameless existing attribute is left in place unchanged. -/
theorem claim_C8 : ∀ existing incoming : List Attr,
    (mergeNoteAttributes existing
        (incoming.filter fun a => (attrTruthyName a).isSome) =
      mergeNoteAttributes existing incoming) ∧
    (∀ (j : Nat) (a : Attr), existing[j]? = some a → attrTruthyName a = none →
      (mergeNoteAttributes existing incoming)[j]? = some a) :=
  fun existing incoming =>
    ⟨merge_filter_truthy existing incoming,
     fun _ _ hj h => merge_untouched_nameless hj h⟩

/-- Witness for C8 at a concrete input: a nameless existing attribute
survives the merge unchanged at its position. -/
theorem claim_C8_witness :
    (mergeNoteAttributes [⟨none, some "x"⟩] [⟨none, some "y"⟩])[0]? =
      some ⟨none, some "x"⟩ :=
  (claim_C8 [⟨none, some "x"⟩] [⟨none, some "y"⟩]).2 0 ⟨none, some "x"⟩
    (by decide) (by decide)

/-- C9: a null/undefined incoming value is written as the empty string —
merging is unchanged if incoming values are pre-coerced with `?? ""`, and
any entry of the merged list whose value is still null is an untouched
existing entry (so entries originating from the incoming side always carry
a string value); the concrete instance inserts `""`. -/
theorem claim_C9 :
    (∀ existing incoming : List Attr,
      (∀ (j : Nat) (x : Attr),
        (mergeNoteAttributes existing incoming)[j]? = some x →
        x.value = none → existing[j]? = some x) ∧
      mergeNoteAttributes existing (incoming.map coerceAttr) =
        mergeNoteAttributes existing incoming) ∧
    mergeNoteAttributes [] [⟨some "Delivery-Date", none⟩] =
      [⟨some "Delivery-Date", some ""⟩] :=
  ⟨fun existing incoming =>
    ⟨fun _ _ hj hx => merge_value_none_from_existing hj hx,
     merge_map_coerce existing incoming⟩,
   by decide⟩

/-- Witness for C9 at a concrete input: the only null-valued entry of a
merge output is the untouched existing entry at the same position. -/
theorem claim_C9_witness :
    ([⟨some "A", none⟩] : List Attr)[0]? = some ⟨some "A", none⟩ :=
  (claim_C9.1 [⟨some "A", none⟩] []).1 0 ⟨some "A", none⟩ (by decide) (by decide)

/-- C10: when the existing list holds duplicate truthy names, only the
last occurrence is overwritten — every earlier duplicate is unchanged in
place, and the last occurrence receives the last incoming value. -/
theorem claim_C10 :
    (∀ (existing incoming : List Attr) (i j : Nat) (n : String) (a b : Attr),
      existing[i]? = some a → existing[j]? = some b → i < j →
      attrTruthyName a = some n → attrTruthyName b = some n →
      (mergeNoteAttributes existing incoming)[i]? = some a) ∧
    (∀ (existing incoming : List Attr) (n : String) (i : Nat) (v : String),
      lastIdxOf existing n = some i → lastValueFor incoming n = some v →
      (mergeNoteAttributes existing incoming)[i]? = some ⟨some n, some v⟩) :=
  ⟨fun _ _ _ _ _ _ _ hi hj hij hna hnb =>
      merge_earlier_duplicate_unchanged hi hj hij hna hnb,
   fun _ _ _ _ _ hE hv => merge_last_occurrence_overwritten hE hv⟩

/-- Witness for C10 at a concrete input with a duplicated existing name:
the earlier duplicate keeps its old value, the last occurrence is
overwritten with the incoming value. -/
theorem claim_C10_witness :
    (mergeNoteAttributes [⟨some "N", some "1"⟩, ⟨some "N", some "2"⟩]
        [⟨some "N", some "9"⟩])[0]? = some ⟨some "N", some "1"⟩ ∧
    (mergeNoteAttributes [⟨some "N", some "1"⟩, ⟨some "N", some "2"⟩]
        [⟨some "N", some "9"⟩])[1]? = some ⟨some "N", some "9"⟩ :=
  ⟨claim_C10.1 [⟨some "N", some "1"⟩, ⟨some "N", some "2"⟩]
      [⟨some "N", some "9"⟩] 0 1 "N" ⟨some "N", some "1"⟩ ⟨some "N", some "2"⟩
      (by decide) (by decide) (by decide) (by decide) (by decide),
   claim_C10.2 [⟨some "N", some "1"⟩, ⟨some "N", some "2"⟩]
      [⟨some "N", some "9"⟩] "N" 1 "9" (by decide) (by decide)⟩

theorem filter_wanted_truthy {draftAttrs : List Attr} {c : Attr} {n : String}
    (hc : c ∈ draftAttrs.filter wantedP) (hn : attrTruthyName c = some n) :
    n ∈ wantedNames := by
  obtain ⟨_, hw⟩ := List.mem_filter.mp hc
  obtain ⟨m, hm, hmem⟩ := wantedP_name hw
  obtain ⟨hname, _⟩ := attrTruthyName_eq_some hn
  rw [hname] at hm
  injection hm with hm
  subst hm
  exact hmem

theorem changed_name_wanted {existing draftAttrs : List Attr} {j : Nat} {a : Attr}
    (hch : owFun existing (draftAttrs.filter wantedP) j a ≠ a) :
    ∃ n, a.name = some n ∧ n ∈ wantedNames := by
  obtain ⟨n, v, hna, _, hv, _⟩ := owFun_changed hch
  obtain ⟨c, hc, hcn⟩ := lastValueFor_some_exists hv
  obtain ⟨hname, _⟩ := attrTruthyName_eq_some hna
  exact ⟨n, hname, filter_wanted_truthy hc hcn⟩

theorem appended_name_wanted {existing draftAttrs : List Attr} {x : Attr}
    (hx : x ∈ appendedNew existing (draftAttrs.filter wantedP)) :
    ∃ n, x.name = some n ∧ n ∈ wantedNames := by
  obtain ⟨c, hc, m, hm, _, hxa⟩ := mem_appendedNew hx
  obtain ⟨hname, _⟩ := attrTruthyName_eq_some hm
  refine ⟨m, ?_, filter_wanted_truthy hc hm⟩
  rw [hxa]
  simp [coerceAttr, hname]

/-- C4: the handler's merged output (allow-list filter then merge) keeps
every pre-existing attribute name at its position and in its relative
order; an existing entry that changed, and every appended entry, carries
one of the three allow-listed names; a draft attribute with any other
name is never copied into the output. -/
theorem claim_C4 : ∀ existing draftAttrs : List Attr,
    (∀ (j : Nat) (a : Attr), existing[j]? = some a →
      ∃ b, (mergeNoteAttributes existing (draftAttrs.filter wantedP))[j]? =
        some b ∧ b.name = a.name) ∧
    (∀ (j : Nat) (a b : Attr), existing[j]? = some a →
      (mergeNoteAttributes existing (draftAttrs.filter wantedP))[j]? = some b →
      b ≠ a → ∃ n, a.name = some n ∧ n ∈ wantedNames) ∧
    (∀ (j : Nat) (x : Attr), existing.length ≤ j →
      (mergeNoteAttributes existing (draftAttrs.filter wantedP))[j]? = some x →
      ∃ n, x.name = some n ∧ n ∈ wantedNames) ∧
    (∀ x, x ∈ mergeNoteAttributes existing (draftAttrs.filter wantedP) →
      x ∈ existing ∨ ∃ n, x.name = some n ∧ n ∈ wantedNames) := by
  intro existing draftAttrs
  refine ⟨?_, ?_, ?_, ?_⟩
  · intro j a hj
    exact merge_name_preserved hj
  · intro j a b hj hjb hne
    have hlt : j < existing.length := (List.getElem?_eq_some.mp hj).1
    rw [getElem?_merge_left hlt, hj, Option.map_some'] at hjb
    injection hjb with hjb
    have hch : owFun existing (draftAttrs.filter wantedP) j a ≠ a := by
      intro hfix
      exact hne (by rw [← hjb, hfix])
    exact changed_name_wanted hch
  · intro j x hge hj
    rw [getElem?_merge_right hge] at hj
    exact appended_name_wanted (List.getElem?_mem hj)
  · intro x hx
    obtain ⟨j, hj⟩ := List.mem_iff_getElem?.mp hx
    by_cases hlt : j < existing.length
    · rw [getElem?_merge_left hlt] at hj
      cases he : existing[j]? with
      | none => rw [he] at hj; simp at hj
      | some a =>
        rw [he] at hj
        simp only [Option.map_some'] at hj
        injection hj with hj
        by_cases hch : owFun existing (draftAttrs.filter wantedP) j a = a
        · left
          rw [← hj, hch]
          exact List.getElem?_mem he
        · right
          obtain ⟨n, v, hna, _, _, heq⟩ := owFun_changed hch
          obtain ⟨hname, _⟩ := attrTruthyName_eq_some hna
          obtain ⟨n2, hn2, hwant⟩ := changed_name_wanted hch
          rw [hname] at hn2
          injection hn2 with hn2
          subst hn2
          refine ⟨n, ?_, hwant⟩
          rw [← hj, heq]
    · push_neg at hlt
      rw [getElem?_merge_right hlt] at hj
      right
      exact appended_name_wanted (List.getElem?_mem hj)

/-- Witness for C4 at the spec's own example: the appended entry in the
merge of `[Gift]` with the filtered draft `[Delivery-Date, Unrelated]`
carries an allow-listed name. -/
theorem claim_C4_witness :
    ∃ n, (Attr.mk (some "Delivery-Date") (some "2024-05-01")).name = some n ∧
      n ∈ wantedNames :=
  (claim_C4 [⟨some "Gift", some "yes"⟩]
      [⟨some "Delivery-Date", some "2024-05-01"⟩, ⟨some "Unrelated", some "x"⟩]).2.2.1
    1 ⟨some "Delivery-Date", some "2024-05-01"⟩ (by decide) (by decide)

theorem handlerV1_props (env : Env) (w : World) (req : Request) :
    ((handlerV1 env w req).status = 200 ∨ (handlerV1 env w req).status = 401 ∨
      (handlerV1 env w req).status = 400) ∧
    ((handlerV1 env w req).status = 401 ↔
      req.method = "POST" ∧ authFails env w req = true) ∧
    ((handlerV1 env w req).status = 400 ↔
      req.method = "POST" ∧ authFails env w req = false ∧
        w.parse req.rawBody = none) := by
  by_cases hm : req.method = "POST"
  · cases hf : authFails env w req with
    | true =>
      obtain ⟨h1, _⟩ := handlerV1_auth_fail hm hf
      refine ⟨Or.inr (Or.inl h1), ?_, ?_⟩
      · exact ⟨fun _ => ⟨hm, rfl⟩, fun _ => h1⟩
      · constructor
        · intro h4; omega
        · rintro ⟨_, hfF, _⟩
          exact absurd hfF (by simp)
    | false =>
      obtain ⟨s, hb, hs, hh, hsne, hhne, heq⟩ := authFails_eq_false_iff.mp hf
      have heval := handlerV1_auth_ok hm hs hh hsne hhne
        ((timingSafeEqual_eq_true_iff _ _).mpr heq)
      rw [heval]
      have hst : (orderPhase w req.rawBody (draftPhase w)).status = 200 ∨
          (orderPhase w req.rawBody (draftPhase w)).status = 400 :=
        orderPhase_status (draftPhase_status w)
      refine ⟨?_, ?_, ?_⟩
      · rcases hst with h | h
        · exact Or.inl h
        · exact Or.inr (Or.inr h)
      · constructor
        · intro h4
          rcases hst with h | h <;> omega
        · rintro ⟨_, hfT⟩
          exact absurd hfT (by simp)
      · rw [orderPhase_status_eq_400_iff (draftPhase_status w)]
        exact ⟨fun hp => ⟨hm, rfl, hp⟩, fun h => h.2.2⟩
  · rw [handlerV1_not_post hm]
    refine ⟨Or.inl rfl, ?_, ?_⟩ <;> simp [hm]

theorem handlerV2_props (env : Env) (w : World) (req : Request) :
    ((handlerV2 env w req).status = 200 ∨ (handlerV2 env w req).status = 401 ∨
      (handlerV2 env w req).status = 400) ∧
    ((handlerV2 env w req).status = 401 ↔
      req.method = "POST" ∧ authFails env w req = true) ∧
    ((handlerV2 env w req).status = 400 ↔
      req.method = "POST" ∧ authFails env w req = false ∧
        w.parse req.rawBody = none) := by
  by_cases hm : req.method = "POST"
  · cases hf : authFails env w req with
    | true =>
      obtain ⟨h1, _⟩ := handlerV2_auth_fail hm hf
      refine ⟨Or.inr (Or.inl h1), ?_, ?_⟩
      · exact ⟨fun _ => ⟨hm, rfl⟩, fun _ => h1⟩
      · constructor
        · intro h4; omega
        · rintro ⟨_, hfF, _⟩
          exact absurd hfF (by simp)
    | false =>
      obtain ⟨s, hb, hs, hh, hsne, hhne, heq⟩ := authFails_eq_false_iff.mp hf
      have heval := handlerV2_auth_ok hm hs hh hsne hhne
        ((timingSafeEqual_eq_true_iff _ _).mpr heq)
      rw [heval]
      have hst : (orderPhase w req.rawBody (taggedAfterOrder w)).status = 200 ∨
          (orderPhase w req.rawBody (taggedAfterOrder w)).status = 400 :=
        orderPhase_status (taggedAfterOrder_status w)
      refine ⟨?_, ?_, ?_⟩
      · rcases hst with h | h
        · exact Or.inl h
        · exact Or.inr (Or.inr h)
      · constructor
        · intro h4
          rcases hst with h | h <;> omega
        · rintro ⟨_, hfT⟩
          exact absurd hfT (by simp)
      · rw [orderPhase_status_eq_400_iff (taggedAfterOrder_status w)]
        exact ⟨fun hp => ⟨hm, rfl, hp⟩, fun h => h.2.2⟩
  · rw [handlerV2_not_post hm]
    refine ⟨Or.inl rfl, ?_, ?_⟩ <;> simp [hm]

/-- C2: on a POST request, each revision's handler answers 401 with zero
outbound calls exactly when authentication fails — the secret is missing
(unset or empty), the signature header is missing (absent or empty), or
the computed digest is not byte-equal to the header — and the byte
comparison fails closed on unequal lengths before comparing content. -/
theorem claim_C2 :
    (∀ a b : List Nat, a.length ≠ b.length → timingSafeEqual a b = false) ∧
    (∀ (env : Env) (w : World) (req : Request), req.method = "POST" →
      (((handlerV1 env w req).status = 401 ∧ (handlerV1 env w req).calls = []) ↔
        authFails env w req = true) ∧
      (((handlerV2 env w req).status = 401 ∧ (handlerV2 env w req).calls = []) ↔
        authFails env w req = true)) := by
  refine ⟨fun a b h => timingSafeEqual_of_length_ne h, ?_⟩
  intro env w req hm
  constructor
  · constructor
    · rintro ⟨h401, _⟩
      exact ((handlerV1_props env w req).2.1.mp h401).2
    · intro hf
      exact handlerV1_auth_fail hm hf
  · constructor
    · rintro ⟨h401, _⟩
      exact ((handlerV2_props env w req).2.1.mp h401).2
    · intro hf
      exact handlerV2_auth_fail hm hf

/-- Witness for C2 at concrete inputs: unequal-length byte strings fail
closed, and on a POST with no configured secret both handlers satisfy the
401-iff-authentication-failure equivalence. -/
theorem claim_C2_witness :
    timingSafeEqual [0] [] = false ∧
    (((handlerV1 ⟨none⟩
        ⟨fun _ _ => [], fun _ => none, fun _ => none, fun _ => none, true⟩
        ⟨"POST", [], some [1]⟩).status = 401 ∧
      (handlerV1 ⟨none⟩
        ⟨fun _ _ => [], fun _ => none, fun _ => none, fun _ => none, true⟩
        ⟨"POST", [], some [1]⟩).calls = []) ↔
      authFails ⟨none⟩
        ⟨fun _ _ => [], fun _ => none, fun _ => none, fun _ => none, true⟩
        ⟨"POST", [], some [1]⟩ = true) :=
  ⟨claim_C2.1 [0] [] (by decide),
   (claim_C2.2 ⟨none⟩
      ⟨fun _ _ => [], fun _ => none, fun _ => none, fun _ => none, true⟩
      ⟨"POST", [], some [1]⟩ rfl).1⟩

/-- C6: every response status of either revision is 200, 401 or 400; 401
happens exactly on an authentication failure of a POST, 400 exactly when
an authenticated POST body fails JSON parsing, and every other terminal
outcome — including the final path regardless of the write outcome —
answers 200. -/
theorem claim_C6 : ∀ (env : Env) (w : World) (req : Request),
    ((handlerV1 env w req).status = 200 ∨ (handlerV1 env w req).status = 401 ∨
      (handlerV1 env w req).status = 400) ∧
    ((handlerV1 env w req).status = 401 ↔
      req.method = "POST" ∧ authFails env w req = true) ∧
    ((handlerV1 env w req).status = 400 ↔
      req.method = "POST" ∧ authFails env w req = false ∧
        w.parse req.rawBody = none) ∧
    ((handlerV2 env w req).status = 200 ∨ (handlerV2 env w req).status = 401 ∨
      (handlerV2 env w req).status = 400) ∧
    ((handlerV2 env w req).status = 401 ↔
      req.method = "POST" ∧ authFails env w req = true) ∧
    ((handlerV2 env w req).status = 400 ↔
      req.method = "POST" ∧ authFails env w req = false ∧
        w.parse req.rawBody = none) :=
  fun env w req =>
    ⟨(handlerV1_props env w req).1, (handlerV1_props env w req).2.1,
     (handlerV1_props env w req).2.2, (handlerV2_props env w req).1,
     (handlerV2_props env w req).2.1, (handlerV2_props env w req).2.2⟩

/-- C5 (tagged revision): once an authenticated POST has fetched the
order, a lower-cased tag string without the marker ends the request with
200 and no further remote calls beyond the order fetch, while a tag
string containing the marker proceeds to the draft-link step
(`draftPhase`); the claim's two example tag strings evaluate as stated. -/
theorem claim_C5 :
    (∀ (env : Env) (w : World) (req : Request) (s hb : List Nat)
        (ev : OrderEvent) (oid : Nat) (ord : OrderResource),
      req.method = "POST" → env.secret = some s → req.hmacHeader = some hb →
      s ≠ [] → hb ≠ [] →
      timingSafeEqual (w.hmac s req.rawBody) hb = true →
      w.parse req.rawBody = some ev → truthyId ev.id = some oid →
      w.fetchOrder oid = some ord →
      (strContains (lowerStr (ord.tags.getD "")) samitaMarker = false →
        handlerV2 env w req =
          ⟨200, "Not a Samita order", [RemoteCall.getOrder oid]⟩) ∧
      (strContains (lowerStr (ord.tags.getD "")) samitaMarker = true →
        handlerV2 env w req = draftPhase w oid ord)) ∧
    strContains (lowerStr "Wholesale, SAMITA-Wholesale") samitaMarker = true ∧
    strContains (lowerStr "retail") samitaMarker = false := by
  refine ⟨?_, by decide, by decide⟩
  intro env w req s hb ev oid ord hm hs hh hsne hhne ht hp hid ho
  rw [handlerV2_auth_ok hm hs hh hsne hhne ht, orderPhase_eval hp hid ho]
  exact ⟨fun hmk => taggedAfterOrder_no_marker hmk,
         fun hmk => taggedAfterOrder_marker hmk⟩

/-- Witness for C5 at a concrete world: an authenticated POST whose
fetched order is tagged only `retail` is acknowledged with 200 and no
further remote calls. -/
theorem claim_C5_witness :
    handlerV2 ⟨some [1]⟩
      ⟨fun _ _ => [7], fun _ => some ⟨some 5⟩,
       fun _ => some ⟨some "retail", some 9, none⟩, fun _ => none, true⟩
      ⟨"POST", [0], some [7]⟩ =
      ⟨200, "Not a Samita order", [RemoteCall.getOrder 5]⟩ :=
  (claim_C5.1 ⟨some [1]⟩
      ⟨fun _ _ => [7], fun _ => some ⟨some 5⟩,
       fun _ => some ⟨some "retail", some 9, none⟩, fun _ => none, true⟩
      ⟨"POST", [0], some [7]⟩ [1] [7] ⟨some 5⟩ 5 ⟨some "retail", some 9, none⟩
      rfl rfl rfl (by decide) (by decide) (by decide) rfl (by decide) rfl).1
    (by decide)

/-- C7: once an authenticated POST has fetched the order (and, for the
tagged revision, the marker is present), a falsy `draft_order_id` ends
the request with 200 and no remote calls beyond the order fetch, in both
revisions. -/
theorem claim_C7 :
    ∀ (env : Env) (w : World) (req : Request) (s hb : List Nat)
      (ev : OrderEvent) (oid : Nat) (ord : OrderResource),
    req.method = "POST" → env.secret = some s → req.hmacHeader = some hb →
    s ≠ [] → hb ≠ [] →
    timingSafeEqual (w.hmac s req.rawBody) hb = true →
    w.parse req.rawBody = some ev → truthyId ev.id = some oid →
    w.fetchOrder oid = some ord →
    truthyId ord.draft_order_id = none →
    handlerV1 env w req = ⟨200, "No draft link", [RemoteCall.getOrder oid]⟩ ∧
    (strContains (lowerStr (ord.tags.getD "")) samitaMarker = true →
      handlerV2 env w req =
        ⟨200, "No draft link", [RemoteCall.getOrder oid]⟩) := by
  intro env w req s hb ev oid ord hm hs hh hsne hhne ht hp hid ho hdid
  constructor
  · rw [handlerV1_auth_ok hm hs hh hsne hhne ht, orderPhase_eval hp hid ho,
      draftPhase_no_draft_link hdid]
  · intro hmk
    rw [handlerV2_auth_ok hm hs hh hsne hhne ht, orderPhase_eval hp hid ho,
      taggedAfterOrder_marker hmk, draftPhase_no_draft_link hdid]

/-- Witness for C7 at a concrete world: an order without a draft link
(tagged with the marker, so both revisions reach the same step) yields
200 with only the order fetch issued, in both revisions. -/
theorem claim_C7_witness :
    handlerV1 ⟨some [1]⟩
      ⟨fun _ _ => [7], fun _ => some ⟨some 5⟩,
       fun _ => some ⟨some "samita-wholesale", none, none⟩, fun _ => none, true⟩
      ⟨"POST", [0], some [7]⟩ =
      ⟨200, "No draft link", [RemoteCall.getOrder 5]⟩ ∧
    handlerV2 ⟨some [1]⟩
      ⟨fun _ _ => [7], fun _ => some ⟨some 5⟩,
       fun _ => some ⟨some "samita-wholesale", none, none⟩, fun _ => none, true⟩
      ⟨"POST", [0], some [7]⟩ =
      ⟨200, "No draft link", [RemoteCall.getOrder 5]⟩ :=
  ⟨(claim_C7 ⟨some [1]⟩
      ⟨fun _ _ => [7], fun _ => some ⟨some 5⟩,
       fun _ => some ⟨some "samita-wholesale", none, none⟩, fun _ => none, true⟩
      ⟨"POST", [0], some [7]⟩ [1] [7] ⟨some 5⟩ 5
      ⟨some "samita-wholesale", none, none⟩
      rfl rfl rfl (by decide) (by decide) (by decide) rfl (by decide) rfl
      (by decide)).1,
   (claim_C7 ⟨some [1]⟩
      ⟨fun _ _ => [7], fun _ => some ⟨some 5⟩,
       fun _ => some ⟨some "samita-wholesale", none, none⟩, fun _ => none, true⟩
      ⟨"POST", [0], some [7]⟩ [1] [7] ⟨some 5⟩ 5
      ⟨some "samita-wholesale", none, none⟩
      rfl rfl rfl (by decide) (by decide) (by decide) rfl (by decide) rfl
      (by decide)).2 (by decide)⟩
